import Mathlib

/-!
Verification of the LectureClip transcript-processing core
(`src/lambdas/process-results`): the Token Normalizer (`_process_items`),
the Chunk Aggregator (`_combine_by_speaker`), the Embedding Enricher
(`generate_text_embeddings` / `embed_text`) and the Pipeline Driver
(`handler`).

Modelling conventions:
- A Python `str` is embedded as a `List Char` (named `Str` below); `s + t`
  is list append, `len` is `List.length`, `str.rstrip()` drops trailing
  whitespace characters, `endswith((".", "!", "?"))` inspects the last
  character.
- A Transcribe item (a JSON dict) is a structure whose optional keys are
  `Option`-valued; a missing key read with `item[...]` raises, which is
  embedded as `Option` propagation (`none` = raised exception), while
  `item.get(k, d)` is `Option.getD`.
- `start_time` carries the parsed numeric value `float(item["start_time"])`
  as a rational; `math.floor` is `Rat.floor`.
- Service calls (Bedrock, S3) are oracles passed as function arguments;
  `none` models a raised client exception. The per-record `uuid.uuid4()`
  and `datetime.now` values are modelled as streams indexed by the record's
  position, since each loop iteration draws a fresh value.
-/

abbrev Str := List Char

/-- One alternative inside a Transcribe item; `content = none` models a
dict without a `"content"` key. -/
structure Alt where
  content : Option Str
deriving DecidableEq, Repr

/-- One element of `results.items` in the Transcribe document. -/
structure Item where
  type : Str
  alternatives : List Alt
  start_time : Option Rat
  speaker_label : Option Str
deriving DecidableEq, Repr

/-- A `(second, speaker, text)` triple: the Normalizer's output and the
Aggregator's input and output. -/
abbrev Seg := Int × Str × Str

def punctType : Str := "punctuation".toList

def defaultSpeaker : Str := "spk_0".toList

/-- `item["alternatives"][0]["content"]`; `none` when `alternatives` is
empty (IndexError) or the first alternative has no content key (KeyError). -/
def itemContent (it : Item) : Option Str :=
  match it.alternatives with
  | [] => none
  | a :: _ => a.content

/-- One iteration of the `_process_items` loop over `result`;
`none` models a raised KeyError/IndexError. -/
def processStep (result : List Seg) (it : Item) : Option (List Seg) :=
  match itemContent it with
  | none => none
  | some content =>
    if it.type = punctType then
      match result.getLast? with
      | none => some result
      | some (sec, spk, txt) => some (result.dropLast ++ [(sec, spk, txt ++ content)])
    else
      match it.start_time with
      | none => none
      | some st =>
        some (result ++ [(st.floor, it.speaker_label.getD defaultSpeaker, content)])

def processGo (result : List Seg) : List Item → Option (List Seg)
  | [] => some result
  | it :: rest =>
    match processStep result it with
    | none => none
    | some r => processGo r rest

/-- `_process_items(items)`: convert a Transcribe items list into
`(second, speaker, text)` tuples, folding punctuation into the
preceding word. -/
def _process_items (items : List Item) : Option (List Seg) :=
  processGo [] items

/-- `_MAX_CHUNK_CHARS` from the source. -/
def _MAX_CHUNK_CHARS : Nat := 1000

/-- Python `str.rstrip()`: remove trailing whitespace. -/
def rstrip (s : Str) : Str :=
  (s.reverse.dropWhile Char.isWhitespace).reverse

/-- `s.endswith((".", "!", "?"))` for single-character suffixes. -/
def endsSentence (s : Str) : Bool :=
  match s.getLast? with
  | none => false
  | some c => c = '.' || c = '!' || c = '?'

/-- The loop body of `_combine_by_speaker`: state is
`(chunks, cur)` where `cur = some (cur_sec, cur_spk, cur_txt)` when an
accumulator is pending. -/
def combineStep (st : List Seg × Option Seg) (seg : Seg) : List Seg × Option Seg :=
  match st, seg with
  | (chunks, none), seg => (chunks, some seg)
  | (chunks, some (csec, cspk, ctxt)), (sec, spk, txt) =>
    if spk = cspk then
      let ntxt := ctxt ++ ' ' :: txt
      if ntxt.length > _MAX_CHUNK_CHARS ∧ endsSentence (rstrip ntxt) then
        (chunks ++ [(csec, cspk, ntxt)], some (sec, spk, txt))
      else
        (chunks, some (csec, cspk, ntxt))
    else
      (chunks ++ [(csec, cspk, ctxt)], some (sec, spk, txt))

/-- End-of-stream handling of `_combine_by_speaker`: emit the pending
accumulator, merging a short same-speaker trailing fragment into the
previous chunk. -/
def combineFinish (st : List Seg × Option Seg) : List Seg :=
  match st with
  | (chunks, none) => chunks
  | (chunks, some (csec, cspk, ctxt)) =>
    match chunks.getLast? with
    | some (lsec, lspk, ltxt) =>
      if ctxt.length < 100 ∧ lspk = cspk then
        chunks.dropLast ++ [(lsec, lspk, ltxt ++ ' ' :: ctxt)]
      else
        chunks ++ [(csec, cspk, ctxt)]
    | none => chunks ++ [(csec, cspk, ctxt)]

/-- `_combine_by_speaker(items)`: group consecutive same-speaker segments
into chunks. -/
def _combine_by_speaker (items : List Seg) : List Seg :=
  combineFinish (items.foldl combineStep ([], none))

/-- `parse_transcript` restricted to its pure part: the document is already
reduced to its `results.items` list. -/
def parse_transcript (items : List Item) : Option (List Seg) :=
  match _process_items items with
  | none => none
  | some processed => some (_combine_by_speaker processed)

-- Scenario A input (spec §8, claim C2).

def wordItem (content : Str) (t : Rat) (spk : Str) : Item :=
  ⟨"pronunciation".toList, [⟨some content⟩], some t, some spk⟩

def punctItem (content : Str) : Item :=
  ⟨punctType, [⟨some content⟩], none, none⟩

/-- 0.01 seconds, built with an explicit denominator so that kernel
reduction (`decide`) can evaluate it. -/
def t0_01 : ℚ := Rat.mk' 1 100 (by decide) (by decide)

/-- 0.40 seconds. -/
def t0_40 : ℚ := Rat.mk' 2 5 (by decide) (by decide)

/-- 1.30 seconds. -/
def t1_30 : ℚ := Rat.mk' 13 10 (by decide) (by decide)

/-- 1.60 seconds. -/
def t1_60 : ℚ := Rat.mk' 8 5 (by decide) (by decide)

def scenarioA : List Item :=
  [ wordItem "Hello".toList t0_01 "spk_0".toList
  , wordItem "world".toList t0_40 "spk_0".toList
  , punctItem ".".toList
  , wordItem "This".toList 1 "spk_1".toList
  , wordItem "is".toList t1_30 "spk_1".toList
  , wordItem "speaker".toList t1_60 "spk_1".toList
  , wordItem "two".toList 2 "spk_1".toList
  , punctItem ".".toList ]

/-- The Segments the Normalizer produces from Scenario A. -/
def segsA : List Seg :=
  [ (0, "spk_0".toList, "Hello".toList)
  , (0, "spk_0".toList, "world.".toList)
  , (1, "spk_1".toList, "This".toList)
  , (1, "spk_1".toList, "is".toList)
  , (1, "spk_1".toList, "speaker".toList)
  , (2, "spk_1".toList, "two.".toList) ]

/-!
Embedding Enricher (`bedrock_utils.py`). The Bedrock client is an oracle
`svc : Str → Str → Nat → Option (List ℚ)` taking `(text, model_id,
embedding_dim)`; `none` models a raised client exception, `some v` the
parsed `"embedding"` field of the response body. Vector entries are
opaque to the code, so they are embedded as rationals.
-/

abbrev EmbedSvc := Str → Str → Nat → Option (List ℚ)

/-- `embed_text(text, model_id, embedding_dim)`: call Bedrock and return
the embedding vector for the text.  The response vector is returned
as-is; no validation is applied to it. -/
def embed_text (svc : EmbedSvc) (text model_id : Str) (embedding_dim : Nat) :
    Option (List ℚ) :=
  svc text model_id embedding_dim

/-- One output dict of `generate_text_embeddings`. -/
structure EmbeddingRecord where
  id : Str
  embedding : List ℚ
  text : Str
  start_second : Int
  speaker : Str
  source : Str
  source_uri : Str
  model_id : Str
  created_at : Str
deriving DecidableEq, Repr

/-- `source_uri.rsplit("/", 1)[-1]` if `source_uri` else `""`: the final
path component (the whole string when it contains no slash, empty for the
empty string). -/
def lastPathComponent (source_uri : Str) : Str :=
  (source_uri.reverse.takeWhile (fun c => c ≠ '/')).reverse

/-- The loop of `generate_text_embeddings`; `i` indexes the streams of
fresh uuids and timestamps. -/
def genGo (svc : EmbedSvc) (ids times : Nat → Str)
    (filename source_uri model_id : Str) (dim : Nat) :
    Nat → List Seg → Option (List EmbeddingRecord)
  | _, [] => some []
  | i, (start_second, speaker, text) :: rest =>
    match embed_text svc text model_id dim with
    | none => none
    | some vector =>
      match genGo svc ids times filename source_uri model_id dim (i + 1) rest with
      | none => none
      | some rs =>
        some (⟨ids i, vector, text, start_second, speaker,
               filename, source_uri, model_id, times i⟩ :: rs)

/-- `generate_text_embeddings(segments, source_uri, model_id,
embedding_dim)`: one record per segment, in order; any failed call
aborts the whole run. -/
def generate_text_embeddings (svc : EmbedSvc) (ids times : Nat → Str)
    (segments : List Seg) (source_uri model_id : Str) (embedding_dim : Nat) :
    Option (List EmbeddingRecord) :=
  genGo svc ids times (lastPathComponent source_uri) source_uri model_id
    embedding_dim 0 segments

/-!
Pipeline Driver (`index.py handler`). The transcript fetch
(`fetch_transcript_json` plus the `["results"]["items"]` access) is an
oracle `fetch : Str → Option (List Item)`; `none` models a fetch or
parse failure. The event dict's three relevant keys are `Option`-valued.
-/

structure Event where
  transcriptUrl : Option Str
  mediaUrl : Option Str
  s3_uri : Option Str

/-- `event.get("mediaUrl") or event.get("s3_uri", "")`: Python `or`
falls through on a missing key and on an empty (falsy) string. -/
def eventMediaUri (e : Event) : Str :=
  match e.mediaUrl with
  | some m => if m = [] then e.s3_uri.getD [] else m
  | none => e.s3_uri.getD []

/-- The summary value returned by `handler`. -/
structure HandlerResult where
  statusCode : Nat
  segmentCount : Nat
  embeddingCount : Nat
deriving DecidableEq, Repr

/-- `handler(event)`: fetch and parse the transcript, embed every chunk,
return summary counts.  `none` models any raised exception. -/
def handler (fetch : Str → Option (List Item)) (svc : EmbedSvc)
    (ids times : Nat → Str) (model_id : Str) (embedding_dim : Nat)
    (e : Event) : Option HandlerResult :=
  match e.transcriptUrl with
  | none => none
  | some turl =>
    if turl = [] then none
    else
      match fetch turl with
      | none => none
      | some items =>
        match parse_transcript items with
        | none => none
        | some segments =>
          match generate_text_embeddings svc ids times segments
              (eventMediaUri e) model_id embedding_dim with
          | none => none
          | some embeddings =>
            some ⟨200, segments.length, embeddings.length⟩

/-! ### Theorems -/

/-- C2: for the Scenario A token sequence — word "Hello" (spk_0, t=0.01),
word "world" (spk_0, t=0.40), punctuation ".", word "This" (spk_1,
t=1.00), word "is" (spk_1, t=1.30), word "speaker" (spk_1, t=1.60),
word "two" (spk_1, t=2.00), punctuation "." — normalization followed by
aggregation produces exactly two chunks, in order:
(0, "spk_0", "Hello world.") and (1, "spk_1", "This is speaker two."). -/
theorem scenarioA_two_chunks :
    _process_items scenarioA = some segsA ∧
    parse_transcript scenarioA =
      some [ (0, "spk_0".toList, "Hello world.".toList)
           , (1, "spk_1".toList, "This is speaker two.".toList) ] := by
  decide

/-- C3: when the size-based flush fires on a same-speaker segment
(sec, spk, txt) — the appended accumulator text exceeds
`_MAX_CHUNK_CHARS` and, with trailing whitespace stripped, ends in a
sentence-terminal mark — the emitted chunk is the appended accumulator
text (which ends with txt), and the accumulator is reset to exactly
(sec, spk, txt). -/
theorem size_flush_carries_trigger (chunks : List Seg) (csec : Int)
    (cspk : Str) (ctxt : Str) (sec : Int) (txt : Str)
    (h : (ctxt ++ ' ' :: txt).length > _MAX_CHUNK_CHARS ∧
         endsSentence (rstrip (ctxt ++ ' ' :: txt)) = true) :
    combineStep (chunks, some (csec, cspk, ctxt)) (sec, cspk, txt) =
      (chunks ++ [(csec, cspk, ctxt ++ ' ' :: txt)], some (sec, cspk, txt)) ∧
    txt <:+ ctxt ++ ' ' :: txt := by
  constructor
  · simp only [combineStep, if_pos rfl]
    exact if_pos h
  · rw [List.append_cons]
    exact List.suffix_append _ _

/-- A 999-character text used to exercise the size-based flush. -/
def longA : Str := List.replicate 999 'a'

set_option maxRecDepth 100000

/-- C3 witness: a concrete flush at a 1002-character accumulator. -/
theorem size_flush_carries_trigger_witness :
    combineStep ([], some (0, "spk_0".toList, longA)) (7, "spk_0".toList, ['b', '.']) =
      ([(0, "spk_0".toList, longA ++ ' ' :: ['b', '.'])],
        some (7, "spk_0".toList, ['b', '.'])) ∧
    ['b', '.'] <:+ longA ++ ' ' :: ['b', '.'] :=
  size_flush_carries_trigger [] 0 "spk_0".toList longA 7 ['b', '.'] (by decide)

/-- C4: at end-of-stream with a pending accumulator, if the accumulator
text is shorter than 100 characters and the last emitted chunk carries
the same speaker label, that chunk is replaced by one with its own
start_second and speaker and the space-joined text; otherwise — in
particular whenever the previous chunk's speaker differs, or no chunk
was emitted — the accumulator is appended as its own final chunk. -/
theorem trailing_merge_characterization (init : List Seg) (lsec : Int)
    (lspk ltxt : Str) (csec : Int) (cspk ctxt : Str) :
    combineFinish (init ++ [(lsec, lspk, ltxt)], some (csec, cspk, ctxt)) =
      (if ctxt.length < 100 ∧ lspk = cspk then
        init ++ [(lsec, lspk, ltxt ++ ' ' :: ctxt)]
      else
        init ++ [(lsec, lspk, ltxt), (csec, cspk, ctxt)]) ∧
    combineFinish ([], some (csec, cspk, ctxt)) = [(csec, cspk, ctxt)] := by
  constructor
  · simp only [combineFinish, List.getLast?_concat, List.dropLast_concat]
    split
    · rfl
    · simp
  · rfl

/-- A 1001-character word content. -/
def longB : Str := List.replicate 1001 'a'

/-- C8 counterexample: a single 1001-character word token yields a chunk
whose text has 1001 characters, exceeding `_MAX_CHUNK_CHARS` — chunk
text length is not bounded by the 1000-character limit. -/
theorem chunk_text_exceeds_limit_cex :
    parse_transcript [wordItem longB 0 defaultSpeaker] =
      some [(0, defaultSpeaker, longB)] ∧
    _MAX_CHUNK_CHARS < longB.length := by
  decide

/-- C8 amended: the 1000-character limit only governs the flush
condition, it is not an upper bound on emitted chunk text.  When the
accumulator and the incoming segment share a speaker, the appended text
is emitted as a chunk (and the accumulator reseeded with the segment)
exactly when its length exceeds `_MAX_CHUNK_CHARS` and, with trailing
whitespace stripped, it ends in a sentence-terminal mark; otherwise the
appended text simply stays in the accumulator, whatever its length. -/
theorem flush_condition_characterization (chunks : List Seg) (csec : Int)
    (cspk : Str) (ctxt : Str) (sec : Int) (txt : Str) :
    combineStep (chunks, some (csec, cspk, ctxt)) (sec, cspk, txt) =
      (if (ctxt ++ ' ' :: txt).length > _MAX_CHUNK_CHARS ∧
          endsSentence (rstrip (ctxt ++ ' ' :: txt)) = true then
        (chunks ++ [(csec, cspk, ctxt ++ ' ' :: txt)], some (sec, cspk, txt))
      else
        (chunks, some (csec, cspk, ctxt ++ ' ' :: txt))) := by
  simp only [combineStep, if_pos rfl]
  split <;> split <;> simp_all

/-- Helper: a successful `genGo` run yields one record per segment. -/
theorem genGo_length (svc : EmbedSvc) (ids times : Nat → Str)
    (fn uri mid : Str) (dim : Nat) (segs : List Seg) :
    ∀ (i : Nat) (rs : List EmbeddingRecord),
      genGo svc ids times fn uri mid dim i segs = some rs →
      rs.length = segs.length := by
  induction segs with
  | nil =>
    intro i rs h
    simp only [genGo, Option.some.injEq] at h
    simp [← h]
  | cons sgt rest ih =>
    intro i rs h
    obtain ⟨sec, spk, t⟩ := sgt
    simp only [genGo] at h
    cases hv : embed_text svc t mid dim with
    | none => rw [hv] at h; simp at h
    | some v =>
      rw [hv] at h
      cases hr : genGo svc ids times fn uri mid dim (i + 1) rest with
      | none => rw [hr] at h; simp at h
      | some rs0 =>
        rw [hr] at h
        simp only [Option.some.injEq] at h
        simp [← h, ih _ _ hr]

/-- Helper: every record of a successful `genGo` run carries exactly the
vector the service returned for its text. -/
theorem genGo_embedding_is_svc_response (svc : EmbedSvc) (ids times : Nat → Str)
    (fn uri mid : Str) (dim : Nat) (segs : List Seg) :
    ∀ (i : Nat) (rs : List EmbeddingRecord),
      genGo svc ids times fn uri mid dim i segs = some rs →
      ∀ r ∈ rs, svc r.text mid dim = some r.embedding := by
  induction segs with
  | nil =>
    intro i rs h
    simp only [genGo, Option.some.injEq] at h
    simp [← h]
  | cons sgt rest ih =>
    intro i rs h
    obtain ⟨sec, spk, t⟩ := sgt
    simp only [genGo] at h
    cases hv : embed_text svc t mid dim with
    | none => rw [hv] at h; simp at h
    | some v =>
      rw [hv] at h
      cases hr : genGo svc ids times fn uri mid dim (i + 1) rest with
      | none => rw [hr] at h; simp at h
      | some rs0 =>
        rw [hr] at h
        simp only [Option.some.injEq] at h
        intro r hrmem
        rw [← h] at hrmem
        rcases List.mem_cons.mp hrmem with hhead | htail
        · subst hhead
          exact hv
        · exact ih _ _ hr r htail

/-- Helper: a successful `generate_text_embeddings` call yields one
record per segment. -/
theorem generate_length (svc : EmbedSvc) (ids times : Nat → Str)
    (segments : List Seg) (uri mid : Str) (dim : Nat)
    (recs : List EmbeddingRecord)
    (h : generate_text_embeddings svc ids times segments uri mid dim = some recs) :
    recs.length = segments.length :=
  genGo_length svc ids times (lastPathComponent uri) uri mid dim segments 0 recs h

/-- The embedding oracle used in concrete runs: it always answers with
the one-entry vector `[0]`, whatever dimension was requested. -/
def cexSvc : EmbedSvc := fun _ _ _ => some [0]

def nilStream : Nat → Str := fun _ => []

/-- C5 counterexample: with a requested dimension of 4 and a service
answering a length-1 vector, `generate_text_embeddings` succeeds and
returns a record whose embedding has length 1 ≠ 4 — the call is not
"considered failed" on a wrong-dimension response. -/
theorem embedding_dim_unchecked_cex :
    generate_text_embeddings cexSvc nilStream nilStream
        [(0, defaultSpeaker, "a".toList)] [] "m".toList 4 =
      some [⟨[], [0], "a".toList, 0, defaultSpeaker, [], [], "m".toList, []⟩] ∧
    ([(0 : ℚ)].length = 4) = False := by
  constructor
  · decide
  · decide

/-- C5 amended: the enricher performs no dimension check; each
EmbeddingRecord of a successful run carries exactly the vector the
service returned for its text (a raised service failure propagates and
no default vector is substituted), so record embeddings have the
requested dimension if and only if the service's responses do. -/
theorem embedding_passthrough (svc : EmbedSvc) (ids times : Nat → Str)
    (segments : List Seg) (source_uri model_id : Str) (embedding_dim : Nat)
    (recs : List EmbeddingRecord)
    (h : generate_text_embeddings svc ids times segments source_uri model_id
        embedding_dim = some recs) :
    ∀ r ∈ recs, embed_text svc r.text model_id embedding_dim = some r.embedding :=
  genGo_embedding_is_svc_response svc ids times (lastPathComponent source_uri)
    source_uri model_id embedding_dim segments 0 recs h

/-- C5 witness: the pass-through fact at the concrete run above. -/
theorem embedding_passthrough_witness :
    embed_text cexSvc "a".toList "m".toList 4 = some [0] :=
  embedding_passthrough cexSvc nilStream nilStream
    [(0, defaultSpeaker, "a".toList)] [] "m".toList 4
    [⟨[], [0], "a".toList, 0, defaultSpeaker, [], [], "m".toList, []⟩]
    (by decide) ⟨[], [0], "a".toList, 0, defaultSpeaker, [], [], "m".toList, []⟩
    (by decide)

/-- Two same-speaker word tokens: the Normalizer yields two Segments,
the Aggregator one chunk. -/
def twoWordItems : List Item :=
  [ wordItem "a".toList 0 defaultSpeaker
  , wordItem "b".toList 0 defaultSpeaker ]

def twoWordFetch : Str → Option (List Item) := fun _ => some twoWordItems

def simpleEvent : Event := ⟨some "u".toList, none, none⟩

/-- C1 counterexample: on a transcript of two same-speaker words the
driver returns `segmentCount = 1` (the chunk count) while the Token
Normalizer produced 2 Segments, so the returned `segment_count` is not
the number of Segments produced by the Normalizer. -/
theorem segmentCount_not_normalizer_count_cex :
    handler twoWordFetch cexSvc nilStream nilStream "m".toList 1024 simpleEvent =
      some ⟨200, 1, 1⟩ ∧
    (_process_items twoWordItems).map List.length = some 2 ∧
    (1 : Nat) ≠ 2 := by
  refine ⟨by decide, by decide, by decide⟩

/-- C1 amended: for every driver invocation that completes successfully,
`segment_count` and `embedding_count` both equal the number of Chunks
produced by the Aggregator (`parse_transcript`), with exactly one
EmbeddingRecord generated per Chunk, none dropped and none duplicated;
`segment_count` is not the Normalizer's Segment count. -/
theorem handler_counts_equal_chunk_count
    (fetch : Str → Option (List Item)) (svc : EmbedSvc) (ids times : Nat → Str)
    (model_id : Str) (dim : Nat) (e : Event) (r : HandlerResult)
    (h : handler fetch svc ids times model_id dim e = some r) :
    ∃ turl items chunks recs,
      e.transcriptUrl = some turl ∧
      fetch turl = some items ∧
      parse_transcript items = some chunks ∧
      generate_text_embeddings svc ids times chunks (eventMediaUri e)
        model_id dim = some recs ∧
      recs.length = chunks.length ∧
      r = ⟨200, chunks.length, chunks.length⟩ := by
  unfold handler at h
  cases he : e.transcriptUrl with
  | none => rw [he] at h; simp at h
  | some turl =>
    rw [he] at h
    dsimp only at h
    by_cases hnil : turl = []
    · rw [if_pos hnil] at h; simp at h
    · rw [if_neg hnil] at h
      cases hf : fetch turl with
      | none => rw [hf] at h; simp at h
      | some items =>
        rw [hf] at h
        dsimp only at h
        cases hp : parse_transcript items with
        | none => rw [hp] at h; simp at h
        | some chunks =>
          rw [hp] at h
          dsimp only at h
          cases hg : generate_text_embeddings svc ids times chunks
              (eventMediaUri e) model_id dim with
          | none => rw [hg] at h; simp at h
          | some recs =>
            rw [hg] at h
            dsimp only at h
            simp only [Option.some.injEq] at h
            have hlen := generate_length svc ids times chunks (eventMediaUri e)
              model_id dim recs hg
            exact ⟨turl, items, chunks, recs, rfl, hf, hp, hg, hlen, by
              rw [← h, hlen]⟩

/-- C1 witness: the amended count identity at the concrete two-word run. -/
theorem handler_counts_equal_chunk_count_witness :
    ∃ turl items chunks recs,
      simpleEvent.transcriptUrl = some turl ∧
      twoWordFetch turl = some items ∧
      parse_transcript items = some chunks ∧
      generate_text_embeddings cexSvc nilStream nilStream chunks
        (eventMediaUri simpleEvent) "m".toList 1024 = some recs ∧
      recs.length = chunks.length ∧
      (⟨200, 1, 1⟩ : HandlerResult) = ⟨200, chunks.length, chunks.length⟩ :=
  handler_counts_equal_chunk_count twoWordFetch cexSvc nilStream nilStream
    "m".toList 1024 simpleEvent ⟨200, 1, 1⟩ (by decide)

/-- Helper: a word item with a missing `start_time` or missing
`alternatives[0].content` makes the whole `processGo` run fail,
whatever came before or after it. -/
theorem processGo_none_of_bad_item (it : Item)
    (hword : ¬it.type = punctType)
    (hmiss : it.start_time = none ∨ itemContent it = none) :
    ∀ (items : List Item), it ∈ items → ∀ result,
      processGo result items = none := by
  intro items
  induction items with
  | nil => intro hmem; exact absurd hmem (List.not_mem_nil it)
  | cons a rest ih =>
    intro hmem result
    rcases List.mem_cons.mp hmem with heq | htail
    · subst heq
      have hstep : processStep result it = none := by
        rcases hmiss with h1 | h2
        · cases hc : itemContent it with
          | none => simp [processStep, hc]
          | some c => simp [processStep, hc, hword, h1]
        · simp [processStep, h2]
      simp [processGo, hstep]
    · cases hstep : processStep result a with
      | none => simp [processGo, hstep]
      | some r =>
        simp only [processGo, hstep]
        exact ih htail r

/-- C10: the Normalizer raises (the run yields `none`) whenever any
non-punctuation item lacks `start_time` or lacks
`alternatives[0].content` — no item is skipped and no default is
substituted for those fields; the only defaulted field is
`speaker_label`, which becomes the literal "spk_0" when absent. -/
theorem normalizer_raises_on_missing_fields :
    (∀ (items : List Item) (it : Item), it ∈ items →
      ¬it.type = punctType →
      (it.start_time = none ∨ itemContent it = none) →
      _process_items items = none) ∧
    (∀ (result : List Seg) (it : Item) (rt : ℚ) (c : Str),
      ¬it.type = punctType → it.start_time = some rt →
      itemContent it = some c → it.speaker_label = none →
      processStep result it = some (result ++ [(rt.floor, defaultSpeaker, c)])) := by
  constructor
  · intro items it hmem hword hmiss
    exact processGo_none_of_bad_item it hword hmiss items hmem []
  · intro result it rt c hword hst hc hspk
    simp [processStep, hc, hword, hst, hspk]

/-- A word item missing its `start_time`. -/
def noTimeItem : Item := ⟨"pronunciation".toList, [⟨some "x".toList⟩], none, none⟩

/-- A word item with a `start_time` but no `speaker_label`. -/
def noSpkItem : Item := ⟨"pronunciation".toList, [⟨some "x".toList⟩], some 0, none⟩

/-- C10 witness: the error and the speaker default at concrete items. -/
theorem normalizer_raises_on_missing_fields_witness :
    _process_items [noTimeItem] = none ∧
    processStep [] noSpkItem = some [((0 : ℚ).floor, defaultSpeaker, "x".toList)] :=
  ⟨normalizer_raises_on_missing_fields.1 [noTimeItem] noTimeItem (by decide)
      (by decide) (Or.inl rfl),
   normalizer_raises_on_missing_fields.2 [] noSpkItem 0 "x".toList
      (by decide) rfl rfl rfl⟩

/-- The number of word (non-punctuation) tokens in an items list. -/
def wordCount : List Item → Nat
  | [] => 0
  | it :: rest => (if it.type = punctType then 0 else 1) + wordCount rest

/-- Helper: one Normalizer step grows `result` by one entry per word
item and leaves its length unchanged on punctuation. -/
theorem processStep_length (result : List Seg) (it : Item) (r : List Seg)
    (h : processStep result it = some r) :
    r.length = result.length + (if it.type = punctType then 0 else 1) := by
  unfold processStep at h
  cases hc : itemContent it with
  | none => rw [hc] at h; simp at h
  | some c =>
    rw [hc] at h
    dsimp only at h
    by_cases hp : it.type = punctType
    · rw [if_pos hp] at h
      rw [if_pos hp]
      cases result with
      | nil => simp at h; simp [← h]
      | cons s0 rest0 =>
        cases hl : (s0 :: rest0).getLast? with
        | none => simp at hl
        | some sgt =>
          rw [hl] at h
          obtain ⟨sec, spk, txt⟩ := sgt
          simp only [Option.some.injEq] at h
          simp [← h, List.length_dropLast]
    · rw [if_neg hp] at h
      rw [if_neg hp]
      cases hst : it.start_time with
      | none => rw [hst] at h; simp at h
      | some st =>
        rw [hst] at h
        simp only [Option.some.injEq] at h
        simp [← h]

/-- Helper: a successful Normalizer run produces exactly one Segment per
word item, plus whatever was already accumulated. -/
theorem processGo_length (items : List Item) :
    ∀ (result r : List Seg), processGo result items = some r →
      r.length = result.length + wordCount items := by
  induction items with
  | nil =>
    intro result r h
    simp only [processGo, Option.some.injEq] at h
    simp [← h, wordCount]
  | cons it rest ih =>
    intro result r h
    simp only [processGo] at h
    cases hs : processStep result it with
    | none => rw [hs] at h; simp at h
    | some r0 =>
      rw [hs] at h
      have h0 := processStep_length result it r0 hs
      have h1 := ih r0 r h
      rw [h1, h0, wordCount]
      omega

/-- The number of pending accumulators in an Aggregator state. -/
def accCount : Option Seg → Nat
  | none => 0
  | some _ => 1

/-- Helper: one Aggregator step adds at most one to chunks-plus-pending. -/
theorem combineStep_count (st : List Seg × Option Seg) (seg : Seg) :
    (combineStep st seg).1.length + accCount (combineStep st seg).2 ≤
      st.1.length + accCount st.2 + 1 := by
  obtain ⟨chunks, acc⟩ := st
  obtain ⟨sec, spk, txt⟩ := seg
  cases acc with
  | none => simp [combineStep, accCount]
  | some a =>
    obtain ⟨csec, cspk, ctxt⟩ := a
    by_cases hs : spk = cspk
    · simp only [combineStep, if_pos hs]
      split
      · simp [accCount]
      · simp [accCount]
    · simp [combineStep, if_neg hs, accCount]

/-- Helper: the Aggregator loop adds at most one chunk-or-pending per
consumed segment. -/
theorem combineFold_count (segs : List Seg) :
    ∀ st : List Seg × Option Seg,
      (segs.foldl combineStep st).1.length +
          accCount (segs.foldl combineStep st).2 ≤
        st.1.length + accCount st.2 + segs.length := by
  induction segs with
  | nil => intro st; simp
  | cons s rest ih =>
    intro st
    simp only [List.foldl_cons, List.length_cons]
    have h1 := combineStep_count st s
    have h2 := ih (combineStep st s)
    omega

/-- Helper: end-of-stream handling emits at most one chunk beyond the
pending accumulator. -/
theorem combineFinish_count (st : List Seg × Option Seg) :
    (combineFinish st).length ≤ st.1.length + accCount st.2 := by
  obtain ⟨chunks, acc⟩ := st
  cases acc with
  | none => simp [combineFinish, accCount]
  | some a =>
    obtain ⟨csec, cspk, ctxt⟩ := a
    simp only [combineFinish, accCount]
    cases hl : chunks.getLast? with
    | none => simp
    | some lt =>
      obtain ⟨lsec, lspk, ltxt⟩ := lt
      dsimp only
      split
      · simp only [List.length_append, List.length_dropLast,
          List.length_cons, List.length_nil]
        omega
      · simp

/-- C7: the Normalizer produces at most one Segment per word token
(punctuation tokens never become their own Segments) and the Aggregator
emits at most one Chunk per word token (punctuation tokens never become
standalone Chunks). -/
theorem chunk_count_le_word_count (items : List Item) (segs : List Seg)
    (h : _process_items items = some segs) :
    segs.length ≤ wordCount items ∧
    (_combine_by_speaker segs).length ≤ wordCount items := by
  have h1 : segs.length = wordCount items := by
    have := processGo_length items [] segs h
    simpa using this
  refine ⟨le_of_eq h1, ?_⟩
  have h2 := combineFold_count segs ([], none)
  have h3 := combineFinish_count (segs.foldl combineStep ([], none))
  have hz : accCount (none : Option Seg) = 0 := rfl
  rw [hz] at h2
  unfold _combine_by_speaker
  simp only [List.length_nil] at h2
  omega

/-- C7 witness: the bounds at the Scenario A run. -/
theorem chunk_count_le_word_count_witness :
    segsA.length ≤ wordCount scenarioA ∧
    (_combine_by_speaker segsA).length ≤ wordCount scenarioA :=
  chunk_count_le_word_count scenarioA segsA (by decide)

/-- Helper: the element reported by `getLast?` is a member of the list. -/
theorem mem_of_getLast?_eq {α : Type} {l : List α} {a : α}
    (h : l.getLast? = some a) : a ∈ l := by
  obtain ⟨hne, hx⟩ := List.mem_getLast?_eq_getLast (Option.mem_def.mpr h)
  rw [hx]
  exact List.getLast_mem hne

/-- Space-join of a list of texts, mirroring repeated `f"{a} {b}"`
concatenation. -/
def joinSp : List Str → Str
  | [] => []
  | [t] => t
  | t :: ts => t ++ ' ' :: joinSp ts

theorem joinSp_cons₂ (a b : Str) (l : List Str) :
    joinSp (a :: b :: l) = a ++ ' ' :: joinSp (b :: l) := rfl

/-- Helper: appending one more text to a nonempty join adds one space. -/
theorem joinSp_concat (t : Str) (l : List Str) (h : l ≠ []) :
    joinSp (l ++ [t]) = joinSp l ++ ' ' :: t := by
  induction l with
  | nil => exact absurd rfl h
  | cons a l' ih =>
    cases l' with
    | nil => rfl
    | cons b l'' =>
      calc joinSp ((a :: b :: l'') ++ [t])
          = a ++ ' ' :: joinSp ((b :: l'') ++ [t]) := rfl
        _ = a ++ ' ' :: (joinSp (b :: l'') ++ ' ' :: t) := by
            rw [ih (by simp)]
        _ = (a ++ ' ' :: joinSp (b :: l'')) ++ ' ' :: t := by simp
        _ = joinSp (a :: b :: l'') ++ ' ' :: t := by rw [joinSp_cons₂]

/-- Helper: joining two nonempty text lists joins their joins with one
space. -/
theorem joinSp_append (l1 l2 : List Str) (h1 : l1 ≠ []) (h2 : l2 ≠ []) :
    joinSp (l1 ++ l2) = joinSp l1 ++ ' ' :: joinSp l2 := by
  induction l1 with
  | nil => exact absurd rfl h1
  | cons a l' ih =>
    cases l' with
    | nil =>
      cases l2 with
      | nil => exact absurd rfl h2
      | cons b l'' => rfl
    | cons b l'' =>
      calc joinSp ((a :: b :: l'') ++ l2)
          = a ++ ' ' :: joinSp ((b :: l'') ++ l2) := rfl
        _ = a ++ ' ' :: (joinSp (b :: l'') ++ ' ' :: joinSp l2) := by
            rw [ih (by simp)]
        _ = (a ++ ' ' :: joinSp (b :: l'')) ++ ' ' :: joinSp l2 := by simp
        _ = joinSp (a :: b :: l'') ++ ' ' :: joinSp l2 := by rw [joinSp_cons₂]

/-- The chunk `c` is assembled from a nonempty in-order selection of
input segments, every one of which carries `c`'s speaker label. -/
def chunkFrom (segs : List Seg) (c : Seg) : Prop :=
  ∃ l : List Seg, l ≠ [] ∧ (∀ s ∈ l, s ∈ segs ∧ s.2.1 = c.2.1) ∧
    c.2.2 = joinSp (l.map (fun s => s.2.2))

/-- Helper: a single input segment forms a chunk of its own speaker. -/
theorem chunkFrom_single (segs : List Seg) (sec : Int) (spk txt : Str)
    (h : (sec, spk, txt) ∈ segs) : ∀ z : Int, chunkFrom segs (z, spk, txt) := by
  intro z
  exact ⟨[(sec, spk, txt)], by simp, by simp [h], rfl⟩

/-- The invariant carried through the Aggregator loop: every emitted
chunk and any pending accumulator is single-speaker assembled from the
input segments. -/
def speakerInv (segs : List Seg) (st : List Seg × Option Seg) : Prop :=
  (∀ c ∈ st.1, chunkFrom segs c) ∧ (∀ a, st.2 = some a → chunkFrom segs a)

/-- Helper: one Aggregator step preserves the single-speaker invariant. -/
theorem combineStep_speakerInv (segs : List Seg) (st : List Seg × Option Seg)
    (seg : Seg) (hseg : seg ∈ segs) (h : speakerInv segs st) :
    speakerInv segs (combineStep st seg) := by
  obtain ⟨chunks, acc⟩ := st
  obtain ⟨hchunks, hacc⟩ := h
  obtain ⟨sec, spk, txt⟩ := seg
  cases acc with
  | none =>
    refine ⟨hchunks, ?_⟩
    intro a ha
    simp only [combineStep, Option.some.injEq] at ha
    rw [← ha]
    exact chunkFrom_single segs sec spk txt hseg sec
  | some c0 =>
    obtain ⟨csec, cspk, ctxt⟩ := c0
    have hacc0 : chunkFrom segs (csec, cspk, ctxt) := hacc _ rfl
    by_cases hs : spk = cspk
    · obtain ⟨l, hl1, hl2, hl3⟩ := hacc0
      have hnew : ∀ z : Int, chunkFrom segs (z, cspk, ctxt ++ ' ' :: txt) := by
        intro z
        refine ⟨l ++ [(sec, spk, txt)], by simp, ?_, ?_⟩
        · intro s hsmem
          rcases List.mem_append.mp hsmem with hm | hm
          · exact hl2 s hm
          · simp only [List.mem_singleton] at hm
            rw [hm]
            exact ⟨hseg, hs⟩
        · rw [List.map_append]
          simp only [List.map]
          rw [joinSp_concat txt _ (by simpa using hl1), ← hl3]
      simp only [combineStep, if_pos hs]
      split
      · refine ⟨?_, ?_⟩
        · intro c hc
          rcases List.mem_append.mp hc with hm | hm
          · exact hchunks c hm
          · simp only [List.mem_singleton] at hm
            rw [hm]
            exact hnew csec
        · intro a ha
          simp only [Option.some.injEq] at ha
          rw [← ha]
          exact chunkFrom_single segs sec spk txt hseg sec
      · refine ⟨hchunks, ?_⟩
        intro a ha
        simp only [Option.some.injEq] at ha
        rw [← ha]
        exact hnew csec
    · simp only [combineStep, if_neg hs]
      refine ⟨?_, ?_⟩
      · intro c hc
        rcases List.mem_append.mp hc with hm | hm
        · exact hchunks c hm
        · simp only [List.mem_singleton] at hm
          rw [hm]
          exact hacc0
      · intro a ha
        simp only [Option.some.injEq] at ha
        rw [← ha]
        exact chunkFrom_single segs sec spk txt hseg sec

/-- Helper: the Aggregator loop preserves the single-speaker invariant. -/
theorem combineFold_speakerInv (segs : List Seg) (l : List Seg) :
    ∀ st, (∀ s ∈ l, s ∈ segs) → speakerInv segs st →
      speakerInv segs (l.foldl combineStep st) := by
  induction l with
  | nil => intro st _ h; exact h
  | cons s rest ih =>
    intro st hsub h
    simp only [List.foldl_cons]
    exact ih _ (fun x hx => hsub x (List.mem_cons_of_mem s hx))
      (combineStep_speakerInv segs st s (hsub s (List.mem_cons_self s rest)) h)

/-- Helper: end-of-stream handling preserves single-speaker assembly of
every final chunk, including through the trailing merge. -/
theorem combineFinish_speakerInv (segs : List Seg) (st : List Seg × Option Seg)
    (h : speakerInv segs st) : ∀ c ∈ combineFinish st, chunkFrom segs c := by
  obtain ⟨chunks, acc⟩ := st
  obtain ⟨hchunks, hacc⟩ := h
  cases acc with
  | none => exact hchunks
  | some a =>
    obtain ⟨csec, cspk, ctxt⟩ := a
    have haccF : chunkFrom segs (csec, cspk, ctxt) := hacc _ rfl
    simp only [combineFinish]
    cases hl : chunks.getLast? with
    | none =>
      intro c hc
      rcases List.mem_append.mp hc with hm | hm
      · exact hchunks c hm
      · simp only [List.mem_singleton] at hm
        rw [hm]
        exact haccF
    | some lc =>
      obtain ⟨lsec, lspk, ltxt⟩ := lc
      dsimp only
      split
      · rename_i hcond
        intro c hc
        rcases List.mem_append.mp hc with hm | hm
        · exact hchunks c ((List.dropLast_sublist chunks).subset hm)
        · simp only [List.mem_singleton] at hm
          rw [hm]
          have hlastmem : (lsec, lspk, ltxt) ∈ chunks := mem_of_getLast?_eq hl
          obtain ⟨l1, h11, h12, h13⟩ := hchunks _ hlastmem
          obtain ⟨l2, h21, h22, h23⟩ := haccF
          refine ⟨l1 ++ l2, by simp [h11], ?_, ?_⟩
          · intro s hsmem
            rcases List.mem_append.mp hsmem with hm1 | hm2
            · exact h12 s hm1
            · obtain ⟨hin, hspk2⟩ := h22 s hm2
              exact ⟨hin, hspk2.trans hcond.2.symm⟩
          · rw [List.map_append,
              joinSp_append _ _ (by simpa using h11) (by simpa using h21),
              ← h13, ← h23]
      · intro c hc
        rcases List.mem_append.mp hc with hm | hm
        · exact hchunks c hm
        · simp only [List.mem_singleton] at hm
          rw [hm]
          exact haccF

/-- C6: every chunk emitted by the Aggregator is assembled exclusively
from input segments that carry that chunk's speaker label (space-joined
in order); in particular the trailing merge never joins text of two
different speakers. -/
theorem chunk_text_single_speaker (segs : List Seg) (c : Seg)
    (h : c ∈ _combine_by_speaker segs) : chunkFrom segs c := by
  have hinv : speakerInv segs ([], none) := ⟨by simp, by simp⟩
  exact combineFinish_speakerInv segs _
    (combineFold_speakerInv segs segs ([], none) (fun s hs => hs) hinv) c h

/-- C6 witness: the single-speaker assembly fact at a concrete run. -/
theorem chunk_text_single_speaker_witness :
    chunkFrom [(0, defaultSpeaker, "hi".toList)] (0, defaultSpeaker, "hi".toList) :=
  chunk_text_single_speaker [(0, defaultSpeaker, "hi".toList)]
    (0, defaultSpeaker, "hi".toList) (by decide)

/-- C9 counterexample: a word token whose content is the empty string
yields a chunk whose text is empty — chunk text can be empty when token
contents are. -/
theorem empty_content_gives_empty_chunk_cex :
    parse_transcript [wordItem [] 0 defaultSpeaker] =
      some [(0, defaultSpeaker, [])] := by
  decide

/-- A text that is nonempty and contains no whitespace characters. -/
def allNoWs (s : Str) : Prop :=
  s ≠ [] ∧ ∀ c ∈ s, c.isWhitespace = false

instance (s : Str) : Decidable (allNoWs s) := by
  unfold allNoWs
  infer_instance

/-- A well-formed content field: nonempty and whitespace-free whenever
present. -/
def contentOk : Option Str → Prop
  | none => True
  | some s => allNoWs s

instance : (o : Option Str) → Decidable (contentOk o)
  | none => .isTrue trivial
  | some s => inferInstanceAs (Decidable (allNoWs s))

/-- A text that is nonempty and has no leading or trailing whitespace. -/
def trimmed (s : Str) : Prop :=
  s ≠ [] ∧ (∀ c, s.head? = some c → c.isWhitespace = false) ∧
    (∀ c, s.getLast? = some c → c.isWhitespace = false)

theorem allNoWs_append {s t : Str} (hs : allNoWs s) (ht : allNoWs t) :
    allNoWs (s ++ t) := by
  refine ⟨by simp [hs.1], ?_⟩
  intro c hc
  rcases List.mem_append.mp hc with hm | hm
  · exact hs.2 c hm
  · exact ht.2 c hm

theorem head?_append_left {α : Type} (s t : List α) (h : s ≠ []) :
    (s ++ t).head? = s.head? := by
  cases s with
  | nil => exact absurd rfl h
  | cons a s' => rfl

theorem getLast?_append_right {α : Type} (s t : List α) (h : t ≠ []) :
    (s ++ t).getLast? = t.getLast? := by
  induction s with
  | nil => rfl
  | cons a s' ih =>
    rw [List.cons_append]
    cases hst : s' ++ t with
    | nil =>
      rcases List.append_eq_nil.mp hst with ⟨h1, h2⟩
      exact absurd h2 h
    | cons b u =>
      rw [List.getLast?_cons_cons, ← hst, ih]

theorem trimmed_of_allNoWs {s : Str} (h : allNoWs s) : trimmed s := by
  refine ⟨h.1, ?_, ?_⟩
  · intro c hc
    cases s with
    | nil => simp at hc
    | cons a s' =>
      simp only [List.head?_cons, Option.some.injEq] at hc
      exact h.2 c (by rw [← hc]; exact List.mem_cons_self a s')
  · intro c hc
    exact h.2 c (mem_of_getLast?_eq hc)

/-- Helper: joining two trimmed texts with a single interior space stays
trimmed. -/
theorem trimmed_join {s t : Str} (hs : trimmed s) (ht : trimmed t) :
    trimmed (s ++ ' ' :: t) := by
  refine ⟨by simp [hs.1], ?_, ?_⟩
  · intro c hc
    rw [head?_append_left s (' ' :: t) hs.1] at hc
    exact hs.2.1 c hc
  · intro c hc
    rw [getLast?_append_right s (' ' :: t) (by simp)] at hc
    cases t with
    | nil => exact absurd (ht.1 rfl) id
    | cons b u =>
      rw [List.getLast?_cons_cons] at hc
      exact ht.2.2 c hc

/-- Helper: under well-formed contents, every Segment text the
Normalizer produces is nonempty and whitespace-free. -/
theorem processGo_allNoWs (items : List Item)
    (hok : ∀ it ∈ items, contentOk (itemContent it)) :
    ∀ (result r : List Seg), (∀ s ∈ result, allNoWs s.2.2) →
      processGo result items = some r → ∀ s ∈ r, allNoWs s.2.2 := by
  induction items with
  | nil =>
    intro result r hres h
    simp only [processGo, Option.some.injEq] at h
    rw [← h]
    exact hres
  | cons it rest ih =>
    intro result r hres h
    simp only [processGo] at h
    cases hs : processStep result it with
    | none => rw [hs] at h; simp at h
    | some r0 =>
      rw [hs] at h
      have hrest : ∀ x ∈ rest, contentOk (itemContent x) :=
        fun x hx => hok x (List.mem_cons_of_mem it hx)
      have hr0 : ∀ s ∈ r0, allNoWs s.2.2 := by
        unfold processStep at hs
        cases hc : itemContent it with
        | none => rw [hc] at hs; simp at hs
        | some c =>
          rw [hc] at hs
          dsimp only at hs
          have hcok : allNoWs c := by
            have := hok it (List.mem_cons_self it rest)
            rw [hc] at this
            exact this
          by_cases hp : it.type = punctType
          · rw [if_pos hp] at hs
            cases hgl : result.getLast? with
            | none =>
              rw [hgl] at hs
              simp only [Option.some.injEq] at hs
              rw [← hs]
              exact hres
            | some sgt =>
              rw [hgl] at hs
              obtain ⟨sec, spk, txt⟩ := sgt
              simp only [Option.some.injEq] at hs
              rw [← hs]
              intro s hsm
              rcases List.mem_append.mp hsm with hm | hm
              · exact hres s ((List.dropLast_sublist result).subset hm)
              · simp only [List.mem_singleton] at hm
                rw [hm]
                have htxt : allNoWs txt := hres _ (mem_of_getLast?_eq hgl)
                exact allNoWs_append htxt hcok
          · rw [if_neg hp] at hs
            cases hst : it.start_time with
            | none => rw [hst] at hs; simp at hs
            | some st =>
              rw [hst] at hs
              simp only [Option.some.injEq] at hs
              rw [← hs]
              intro s hsm
              rcases List.mem_append.mp hsm with hm | hm
              · exact hres s hm
              · simp only [List.mem_singleton] at hm
                rw [hm]
                exact hcok
      exact ih hrest r0 r hr0 h

/-- The trimming invariant carried through the Aggregator loop. -/
def trimInv (st : List Seg × Option Seg) : Prop :=
  (∀ c ∈ st.1, trimmed c.2.2) ∧ (∀ a, st.2 = some a → trimmed a.2.2)

/-- Helper: one Aggregator step preserves trimmed chunk texts. -/
theorem combineStep_trimInv (st : List Seg × Option Seg) (seg : Seg)
    (hseg : trimmed seg.2.2) (h : trimInv st) : trimInv (combineStep st seg) := by
  obtain ⟨chunks, acc⟩ := st
  obtain ⟨hchunks, hacc⟩ := h
  obtain ⟨sec, spk, txt⟩ := seg
  cases acc with
  | none =>
    refine ⟨hchunks, ?_⟩
    intro a ha
    simp only [combineStep, Option.some.injEq] at ha
    rw [← ha]
    exact hseg
  | some c0 =>
    obtain ⟨csec, cspk, ctxt⟩ := c0
    have hacc0 : trimmed ctxt := hacc _ rfl
    have hnew : trimmed (ctxt ++ ' ' :: txt) := trimmed_join hacc0 hseg
    by_cases hsp : spk = cspk
    · simp only [combineStep, if_pos hsp]
      split
      · refine ⟨?_, ?_⟩
        · intro c hc
          rcases List.mem_append.mp hc with hm | hm
          · exact hchunks c hm
          · simp only [List.mem_singleton] at hm
            rw [hm]
            exact hnew
        · intro a ha
          simp only [Option.some.injEq] at ha
          rw [← ha]
          exact hseg
      · refine ⟨hchunks, ?_⟩
        intro a ha
        simp only [Option.some.injEq] at ha
        rw [← ha]
        exact hnew
    · simp only [combineStep, if_neg hsp]
      refine ⟨?_, ?_⟩
      · intro c hc
        rcases List.mem_append.mp hc with hm | hm
        · exact hchunks c hm
        · simp only [List.mem_singleton] at hm
          rw [hm]
          exact hacc0
      · intro a ha
        simp only [Option.some.injEq] at ha
        rw [← ha]
        exact hseg

/-- Helper: the Aggregator loop preserves trimmed chunk texts. -/
theorem combineFold_trimInv (l : List Seg) :
    ∀ st, (∀ s ∈ l, trimmed s.2.2) → trimInv st →
      trimInv (l.foldl combineStep st) := by
  induction l with
  | nil => intro st _ h; exact h
  | cons s rest ih =>
    intro st hsub h
    simp only [List.foldl_cons]
    exact ih _ (fun x hx => hsub x (List.mem_cons_of_mem s hx))
      (combineStep_trimInv st s (hsub s (List.mem_cons_self s rest)) h)

/-- Helper: end-of-stream handling preserves trimmed chunk texts. -/
theorem combineFinish_trimInv (st : List Seg × Option Seg)
    (h : trimInv st) : ∀ c ∈ combineFinish st, trimmed c.2.2 := by
  obtain ⟨chunks, acc⟩ := st
  obtain ⟨hchunks, hacc⟩ := h
  cases acc with
  | none => exact hchunks
  | some a =>
    obtain ⟨csec, cspk, ctxt⟩ := a
    have haccF : trimmed ctxt := hacc _ rfl
    simp only [combineFinish]
    cases hl : chunks.getLast? with
    | none =>
      intro c hc
      rcases List.mem_append.mp hc with hm | hm
      · exact hchunks c hm
      · simp only [List.mem_singleton] at hm
        rw [hm]
        exact haccF
    | some lc =>
      obtain ⟨lsec, lspk, ltxt⟩ := lc
      dsimp only
      split
      · intro c hc
        rcases List.mem_append.mp hc with hm | hm
        · exact hchunks c ((List.dropLast_sublist chunks).subset hm)
        · simp only [List.mem_singleton] at hm
          rw [hm]
          have hlast : trimmed ltxt := hchunks _ (mem_of_getLast?_eq hl)
          exact trimmed_join hlast haccF
      · intro c hc
        rcases List.mem_append.mp hc with hm | hm
        · exact hchunks c hm
        · simp only [List.mem_singleton] at hm
          rw [hm]
          exact haccF

/-- C9 amended: provided every token content present in the items list
is nonempty and whitespace-free, no emitted Chunk's text is empty or
whitespace-only and no Chunk's text begins or ends with whitespace. -/
theorem chunks_trimmed (items : List Item) (segs : List Seg)
    (h : _process_items items = some segs)
    (hok : ∀ it ∈ items, contentOk (itemContent it)) :
    ∀ c ∈ _combine_by_speaker segs, trimmed c.2.2 := by
  have hsegs : ∀ s ∈ segs, allNoWs s.2.2 :=
    processGo_allNoWs items hok [] segs (by simp) h
  have hinv : trimInv ([], none) := ⟨by simp, by simp⟩
  exact combineFinish_trimInv _
    (combineFold_trimInv segs ([], none)
      (fun s hs => trimmed_of_allNoWs (hsegs s hs)) hinv)

/-- C9 witness: the first Scenario A chunk's text is trimmed. -/
theorem chunks_trimmed_witness :
    trimmed ((0, "spk_0".toList, "Hello world.".toList) : Seg).2.2 :=
  chunks_trimmed scenarioA segsA (by decide) (by decide)
    (0, "spk_0".toList, "Hello world.".toList) (by decide)
